import Mathlib

/-!
Verification development for the log-analyzer core of the Json-Morph
repository (file `src/pages/LogAnalyzer.tsx`): the line parser
(`analyzeLogs` / `extractTag`), the identifier extractor (`extractKeys`),
the role classifier and the transaction-correlation engine
(`groupTransactions`).

The TypeScript code is shallowly embedded: strings become `String` /
`List Char` scanners that reproduce the regular expressions of the source,
JavaScript numbers holding epoch milliseconds become `Option Int`
(`none` plays the role of `NaN`), the ES `Map` becomes an association
list, and `Array.prototype.sort` (a stable sort in JavaScript) becomes a
stable insertion sort driven by the very comparator of the source.
-/

namespace LogAnalyzer

/-- JavaScript `\s` restricted to the ASCII whitespace characters that occur
in log lines (space, tab, carriage return, line feed). -/
def isJsWs (c : Char) : Bool :=
  c = ' ' || c = '\t' || c = '\r' || c = '\n'

/-- Word characters of JavaScript regular expressions (`\w`), used for the
`\b` word-boundary assertions of the source's number pattern. -/
def isWordChar (c : Char) : Bool :=
  c.isAlpha || c.isDigit || c = '_'

/-- If `pat` is a literal prefix of `l`, drop it and return the remainder. -/
def dropLit : List Char → List Char → Option (List Char)
  | [], l => some l
  | _ :: _, [] => none
  | p :: ps, c :: cs => if p = c then dropLit ps cs else none

/-- `containsFrom pat l`: does `pat` occur as a contiguous substring of `l`?
Models JavaScript `String.prototype.includes`. -/
def containsFrom (pat : List Char) : List Char → Bool
  | [] => (dropLit pat []).isSome
  | l@(_ :: cs) => (dropLit pat l).isSome || containsFrom pat cs

/-- `s.includes(pat)` of JavaScript. -/
def strIncludes (s pat : String) : Bool :=
  containsFrom pat.data s.data

/-- `s.toLowerCase()` of JavaScript, restricted to the ASCII case mapping. -/
def strLower (s : String) : String :=
  String.mk (s.data.map Char.toLower)

/-- Leading and trailing JavaScript whitespace removed
(`String.prototype.trim`). -/
def jsTrim (l : List Char) : List Char :=
  ((l.dropWhile isJsWs).reverse.dropWhile isJsWs).reverse

/-- `String.prototype.indexOf` returning `-1` when the pattern is absent. -/
def jsIndexOf (pat : List Char) : List Char → Int
  | [] => if (dropLit pat []).isSome then 0 else -1
  | l@(_ :: cs) =>
    if (dropLit pat l).isSome then 0
    else
      let r := jsIndexOf pat cs
      if r < 0 then -1 else r + 1

/-- Take a run of decimal digits of the given list, returning the digits and
the remainder. -/
def digitSpan (l : List Char) : List Char × List Char :=
  (l.takeWhile Char.isDigit, l.dropWhile Char.isDigit)

/-- Interpret a list of decimal digits as a natural number (most significant
first). Non-digit characters never reach this function. -/
def digitsToNat (l : List Char) : Nat :=
  l.foldl (fun acc c => acc * 10 + (c.toNat - '0'.toNat)) 0

/-- Days in a month of the proleptic Gregorian calendar. -/
def daysInMonth (y m : Nat) : Nat :=
  if m = 2 then
    if y % 4 = 0 ∧ (y % 100 ≠ 0 ∨ y % 400 = 0) then 29 else 28
  else if m = 4 ∨ m = 6 ∨ m = 9 ∨ m = 11 then 30
  else 31

/-- Days from the civil epoch 1970-01-01 to year `y`, month `m`, day `d`
(Howard Hinnant's `days_from_civil`, written with floor division so that it
is correct for every year of the four-digit range). -/
def daysFromCivil (y m d : Int) : Int :=
  let y' := if m ≤ 2 then y - 1 else y
  let era := Int.fdiv y' 400
  let yoe := y' - era * 400
  let mp := Int.fmod (m + 9) 12
  let doy := Int.fdiv (153 * mp + 2) 5 + d - 1
  let doe := yoe * 365 + Int.fdiv yoe 4 - Int.fdiv yoe 100 + doy
  era * 146097 + doe - 719468

/-- Parse `HH:MM:SS` with optional `.fff` fraction and optional trailing `Z`,
returning milliseconds into the day.  Returns `none` when the shape or the
ranges are violated. -/
def parseTimeOfDay (l : List Char) : Option Int := do
  let (hh, r1) := digitSpan l
  if hh.length ≠ 2 then none else
  let r2 ← match r1 with | ':' :: r => some r | _ => none
  let (mm, r3) := digitSpan r2
  if mm.length ≠ 2 then none else
  let r4 ← match r3 with | ':' :: r => some r | _ => none
  let (ss, r5) := digitSpan r4
  if ss.length ≠ 2 then none else
  let (msv, r6) ← match r5 with
    | '.' :: r =>
      let (fs, r') := digitSpan r
      if fs.length = 0 then none
      else some (digitsToNat ((fs.take 3) ++ List.replicate (3 - fs.length) '0'), r')
    | r => some (0, r)
  let endOk := match r6 with
    | [] => true
    | ['Z'] => true
    | _ => false
  if !endOk then none else
  let h := digitsToNat hh
  let mi := digitsToNat mm
  let s := digitsToNat ss
  if h ≤ 23 ∧ mi ≤ 59 ∧ s ≤ 59 then
    some ((h * 3600000 + mi * 60000 + s * 1000 + msv : Nat) : Int)
  else none

/-- Model of `new Date(s).getTime()` for the timestamp strings the analyzer
produces: `YYYY-MM-DD`, optionally followed by `T` or a space and
`HH:MM:SS[.fff][Z]`.  Any other string yields `none`, the model's `NaN`.
The host's local-time offset is omitted: it is a constant, so it cancels in
every duration and every ordering comparison the program performs. -/
def getTime (s : String) : Option Int := do
  let l := s.data
  let (ys, r1) := digitSpan l
  if ys.length ≠ 4 then none else
  let r2 ← match r1 with | '-' :: r => some r | _ => none
  let (ms, r3) := digitSpan r2
  if ms.length ≠ 2 then none else
  let r4 ← match r3 with | '-' :: r => some r | _ => none
  let (ds, r5) := digitSpan r4
  if ds.length ≠ 2 then none else
  let y := digitsToNat ys
  let m := digitsToNat ms
  let d := digitsToNat ds
  if 1 ≤ m ∧ m ≤ 12 ∧ 1 ≤ d ∧ d ≤ daysInMonth y m then
    let dayMs : Int := daysFromCivil (y : Int) (m : Int) (d : Int) * 86400000
    match r5 with
    | [] => some dayMs
    | 'T' :: r6 => do
        let tod ← parseTimeOfDay r6
        some (dayMs + tod)
    | ' ' :: r6 => do
        let tod ← parseTimeOfDay r6
        some (dayMs + tod)
    | _ => none
  else none

/-- JavaScript subtraction on numbers that may be `NaN` (`none`). -/
def jsub : Option Int → Option Int → Option Int
  | some a, some b => some (a - b)
  | _, _ => none

/-- Template-literal rendering `\x7b$n\x7d` of a number that may be `NaN`. -/
def jsNumToString : Option Int → String
  | none => "NaN"
  | some n => toString n

/-- The allow-listed field names of the structured pattern of `extractKeys`,
in the order of the regex alternation
`(TSCode|TMCode|ShippingOrderCode|OrderCode|Shopid|ShopId)`. -/
def allowNames : List String :=
  ["TSCode", "TMCode", "ShippingOrderCode", "OrderCode", "Shopid", "ShopId"]

/-- The template literal `$\x7bkind\x7d:$\x7bvalue\x7d` that `extractKeys`
pushes, assembled on the character lists directly. -/
def mkKey (kind v : String) : String :=
  String.mk (kind.data ++ ':' :: v.data)

/-- Consume one leading `"` when present (the optional `"?` of the regex:
greedy, and the value class excludes `"`, so no backtracking can revisit
it). -/
def stripQuote (l : List Char) : List Char :=
  match l with
  | c :: r => if c = '"' then r else l
  | [] => l

/-- The `"?([^",\x7d]+)"?` tail of the structured pattern, starting after
`\s*`: optional quote, a non-empty greedy capture, optional closing quote.
Returns the capture and the remainder after the whole match. -/
def valueCapture (r5 : List Char) : Option (List Char × List Char) :=
  let r6 := stripQuote r5
  let v := r6.takeWhile (fun c => ¬ (c = '"' ∨ c = ',' ∨ c = '}'))
  if v.isEmpty then none
  else some (v, stripQuote (r6.drop v.length))

/-- Attempt the tail of the structured pattern for one alternation branch
`name`: the input `cs` starts right after the opening quote of the match.
Pattern remainder: `name` `"` `\s*` `[:=]` `\s*` then the value tail.
Returns the captured value and the remainder of the input after the match
(the position JavaScript's global `exec` continues from). -/
def matchOneName (name : String) (cs : List Char) : Option (String × List Char) :=
  match dropLit (name.data ++ ['"']) cs with
  | none => none
  | some r2 =>
    match r2.dropWhile isJsWs with
    | [] => none
    | c :: r4 =>
      if c = ':' ∨ c = '=' then
        match valueCapture (r4.dropWhile isJsWs) with
        | some (v, r8) => some (String.mk v, r8)
        | none => none
      else none

/-- Try the six alternation branches in regex order.  No allow-listed name is
a prefix of another, so at most one branch can match at a given position. -/
def matchNames : List String → List Char → Option (String × String × List Char)
  | [], _ => none
  | n :: ns, cs =>
    match matchOneName n cs with
    | some (v, rest) => some (n, v, rest)
    | none => matchNames ns cs

/-- One attempt of the full structured pattern at the current position: it
must start with a literal `"` followed by an allow-listed name. -/
def matchKV : List Char → Option (String × String × List Char)
  | '"' :: cs => matchNames allowNames cs
  | _ => none

/-- The global `exec` loop of the structured pattern: successive
non-overlapping matches, scanning left to right.  Fuel-indexed to keep the
recursion structural; each step consumes at least one character, so fuel
equal to the input length is always sufficient. -/
def structuredScanF : Nat → List Char → List (String × String)
  | 0, _ => []
  | _ + 1, [] => []
  | f + 1, l@(_ :: cs) =>
    match matchKV l with
    | some (n, v, rest) => (n, v) :: structuredScanF f rest
    | none => structuredScanF f cs

/-- All `(FieldName, value)` matches of the structured pattern of
`extractKeys`, in match order, including matches whose value is the literal
`null` (the source skips those when pushing keys but the scan still advances
past them). -/
def structuredScan (s : String) : List (String × String) :=
  structuredScanF s.data.length s.data

/-- The matches of `\b(\d\x7b8,15\x7d)\b`: maximal digit runs whose two
flanks are word boundaries and whose length lies in `[8, 15]`.  A boundary
inside a digit run is impossible, so only whole maximal runs can match.
`prevW` records whether the character just before the current position is a
word character.  Fuel-indexed as above. -/
def digitRunsF : Nat → Bool → List Char → List (List Char)
  | 0, _, _ => []
  | _ + 1, _, [] => []
  | f + 1, prevW, c :: cs =>
    if c.isDigit ∧ prevW = false then
      let run := c :: cs.takeWhile Char.isDigit
      let rest := cs.dropWhile Char.isDigit
      let okLen := decide (8 ≤ run.length ∧ run.length ≤ 15)
      let okEnd := match rest with
        | [] => true
        | d :: _ => ¬ isWordChar d
      (if okLen && okEnd then [run] else []) ++ digitRunsF f true rest
    else
      digitRunsF f (isWordChar c) cs

/-- Insertion-ordered de-duplication, the behaviour of filling a JavaScript
`Set` and iterating it with `forEach`. -/
def dedup (l : List (List Char)) : List (List Char) :=
  l.foldl (fun acc r => if r ∈ acc then acc else acc ++ [r]) []

/-- `extractKeys` of `groupTransactions` (LogAnalyzer.tsx lines 66-92):
structured allow-listed field matches (skipping `null` values) rendered as
`kind:value`, followed by the de-duplicated 8-15 digit `NumberMatch` keys. -/
def extractKeys (content : String) : List String :=
  ((structuredScan content).filterMap fun p =>
    if p.2 = "null" then none else some (mkKey p.1 p.2)) ++
  (dedup (digitRunsF content.data.length false content.data)).map
    fun r => mkKey "NumberMatch" (String.mk r)

/-- One attempt of `/"Status"\s*:\s*"([^"]+)"/` at the current position. -/
def tryStatusAt (l : List Char) : Option String :=
  match dropLit "\"Status\"".data l with
  | none => none
  | some r1 =>
    match r1.dropWhile isJsWs with
    | ':' :: r2 =>
      match r2.dropWhile isJsWs with
      | '"' :: r3 =>
        let v := r3.takeWhile (fun c => c ≠ '"')
        if v.isEmpty then none
        else
          match r3.drop v.length with
          | '"' :: _ => some (String.mk v)
          | _ => none
      | _ => none
    | _ => none

/-- Leftmost match of `/"Status"\s*:\s*"([^"]+)"/`, returning the capture,
the model of `log.message.match(...)` in the status classifier. -/
def statusValueFind : List Char → Option String
  | [] => none
  | l@(_ :: cs) =>
    match tryStatusAt l with
    | some v => some v
    | none => statusValueFind cs

/-- One attempt of the timestamp pattern
`\d\x7b4\x7d-\d\x7b2\x7d-\d\x7b2\x7d[T\s]\d\x7b2\x7d:\d\x7b2\x7d:\d\x7b2\x7d(\.\d+)?`
at the current position, returning the matched characters and the remainder. -/
def tryTimestampAt (l : List Char) : Option (List Char × List Char) := do
  let (ys0, _) := digitSpan l
  if ys0.length < 4 then none else
  let ys := ys0.take 4
  let r1 := l.drop 4
  let r2 ← match r1 with | '-' :: r => some r | _ => none
  let (ms, _) := digitSpan r2
  if ms.length < 2 then none else
  let ms := ms.take 2
  let r3 := r2.drop 2
  let r4 ← match r3 with | '-' :: r => some r | _ => none
  let (ds, _) := digitSpan r4
  if ds.length < 2 then none else
  let ds := ds.take 2
  let r5 := r4.drop 2
  let sep ← match r5 with
    | c :: r => if c = 'T' ∨ isJsWs c then some (c, r) else none
    | [] => none
  let (hh, _) := digitSpan sep.2
  if hh.length < 2 then none else
  let hh := hh.take 2
  let r6 := sep.2.drop 2
  let r7 ← match r6 with | ':' :: r => some r | _ => none
  let (mm, _) := digitSpan r7
  if mm.length < 2 then none else
  let mm := mm.take 2
  let r8 := r7.drop 2
  let r9 ← match r8 with | ':' :: r => some r | _ => none
  let (ss, _) := digitSpan r9
  if ss.length < 2 then none else
  let ss := ss.take 2
  let r10 := r9.drop 2
  let core := ys ++ '-' :: ms ++ '-' :: ds ++ sep.1 :: hh ++ ':' :: mm ++ ':' :: ss
  match r10 with
  | '.' :: r11 =>
    let (fs, r12) := digitSpan r11
    if fs.length = 0 then some (core, r10)
    else some (core ++ '.' :: fs, r12)
  | _ => some (core, r10)

/-- Leftmost match of the timestamp pattern: the scan tries every position
from the left (fixed-width quantifiers cannot backtrack, so failing at one
position simply moves the attempt one character to the right). -/
def timestampFind : List Char → Option (List Char × List Char)
  | [] => none
  | l@(_ :: cs) =>
    match tryTimestampAt l with
    | some r => some r
    | none => timestampFind cs

/-- Does the case-insensitive literal `name` match at the current position,
with a word boundary on each side?  `prevW` tells whether the character
before the position is a word character. -/
def levelHitAt (prevW : Bool) (name : String) (l : List Char) : Bool :=
  if prevW then false
  else
    match dropLit name.data (l.map Char.toLower) with
    | some [] => true
    | some (d :: _) => !isWordChar d
    | none => false

/-- Leftmost case-insensitive whole-word match of
`\b(ERROR|WARN|INFO|DEBUG)\b`, returning the canonical upper-case name (the
source immediately applies `toUpperCase()` to the capture). -/
def levelFindF : Bool → List Char → Option String
  | _, [] => none
  | prevW, l@(c :: cs) =>
    if levelHitAt prevW "error" l then some "ERROR"
    else if levelHitAt prevW "warn" l then some "WARN"
    else if levelHitAt prevW "info" l then some "INFO"
    else if levelHitAt prevW "debug" l then some "DEBUG"
    else levelFindF (isWordChar c) cs

def levelFind (l : List Char) : Option String :=
  levelFindF false l

/-- The backtracking search of `/^([^:\r\n]\x7b1,50\x7d)\s*:/` (rule 1 of
`extractTag`) and of `/^([^\x7b:\r\n]\x7b1,50\x7d)\s*\x7b/` (rule 2): try
capture lengths from `k` down to 1; a length succeeds when the first `k`
characters avoid the excluded class and, after a run of whitespace, the
target character follows.  The class of rule 1 admits whitespace, so the
greedy capture may itself swallow spaces before the colon. -/
def ruleHeadOk (target : Char) (rest : List Char) : Bool :=
  match rest.dropWhile isJsWs with
  | c :: _ => c == target
  | [] => false

def cappedRuleGo (excl : Char → Bool) (target : Char) (body : List Char) :
    Nat → Option (List Char)
  | 0 => none
  | k + 1 =>
    let cap := body.take (k + 1)
    if cap.length == k + 1 && cap.all (fun c => !excl c) &&
        ruleHeadOk target (body.drop (k + 1)) then
      some cap
    else
      cappedRuleGo excl target body k

/-- Rule 1 of `extractTag`: a capture of at most 50 non-colon, non-newline
characters followed (after optional whitespace) by a colon. -/
def colonRule (body : List Char) : Option (List Char) :=
  cappedRuleGo (fun c => c = ':' ∨ c = '\r' ∨ c = '\n') ':' body 50

/-- Rule 2 of `extractTag`: a capture of at most 50 characters avoiding
brace, colon and newline, followed (after optional whitespace) by `\x7b`. -/
def braceRule (body : List Char) : Option (List Char) :=
  cappedRuleGo (fun c => c = '{' ∨ c = ':' ∨ c = '\r' ∨ c = '\n') '{' body 50

/-- The three leading `replace` calls of `extractTag`: strip an anchored
timestamp (with trailing whitespace), then an anchored `.digits`, then an
anchored bare integer, each applied at most once. -/
def stripLeadingFragments (body : List Char) : List Char :=
  let b1 := match tryTimestampAt body with
    | some (_, rest) => rest.dropWhile isJsWs
    | none => body
  let b2 := match b1 with
    | '.' :: r =>
      let (ds, r') := digitSpan r
      if ds.length = 0 then b1 else r'.dropWhile isJsWs
    | _ => b1
  match b2 with
  | c :: _ =>
    if c.isDigit then (b2.dropWhile Char.isDigit).dropWhile isJsWs else b2
  | [] => b2

/-- `extractTag` of `analyzeLogs` (LogAnalyzer.tsx lines 256-288).  When a
timestamp was matched, the body is the line after its first occurrence
(`line.slice(line.indexOf(timestamp) + timestamp.length)`); the leftmost
regex match is also the first occurrence of its own text, so the two
positions coincide. -/
def extractTag (line : List Char) (timestamp : List Char) : String :=
  let body0 := if timestamp.isEmpty then line
    else line.drop ((jsIndexOf timestamp line + timestamp.length).toNat)
  let body := jsTrim (stripLeadingFragments body0)
  match colonRule body with
  | some cap => String.mk (jsTrim cap)
  | none =>
    match braceRule body with
    | some cap => String.mk (jsTrim cap)
    | none =>
      String.mk (body.takeWhile (fun c => ¬ (isJsWs c ∨ c = '{' ∨ c = ':')))

/-- A parsed log record (the `LogEntry` interface of the source). -/
structure LogEntry where
  timestamp : String
  level : String
  message : String
  details : Option String
  tags : List String
deriving Repr, DecidableEq

/-- Split on `\n`, keeping empty segments, as `String.prototype.split`. -/
def splitLinesGo (cur : List Char) : List Char → List (List Char)
  | [] => [cur.reverse]
  | c :: cs =>
    if c = '\n' then cur.reverse :: splitLinesGo [] cs
    else splitLinesGo (c :: cur) cs

def splitLines (l : List Char) : List (List Char) :=
  splitLinesGo [] l

/-- `analyzeLogs` (LogAnalyzer.tsx lines 252-307).  `now` stands for
`new Date().toISOString()`, the ingestion-time default substituted when no
timestamp token is found on the line. -/
def analyzeLogs (logText : String) (now : String) : List LogEntry :=
  let lines := (splitLines logText.data).filter fun l => ¬ (jsTrim l).isEmpty
  lines.map fun line =>
    let tsMatch := timestampFind line
    let ts := match tsMatch with
      | some (t, _) => t
      | none => []
    let tag := extractTag line ts
    { timestamp := if ts.isEmpty then now else String.mk ts
      level := (levelFind line).getD "INFO"
      message := String.mk line
      details := some (String.mk line)
      tags := if tag = "" then [] else [tag] }

/-- A log record together with its position in the `parsedLogs` array.  Two
distinct array elements are distinct JavaScript objects even when their
fields coincide, so the position models object identity and the source's
`===` comparisons become index comparisons. -/
structure Ref where
  idx : Nat
  entry : LogEntry
deriving Repr, DecidableEq

/-- Reference equality (`===`) between records of one run. -/
def refEq (a b : Ref) : Bool :=
  a.idx == b.idx

/-- An element of the time-ordered `requestsByTime` list:
`\x7b log, keys, time \x7d`. -/
structure ReqEntry where
  log : Ref
  keys : List String
  time : Option Int
deriving Repr, DecidableEq

/-- The `Transaction` interface of the source.  `duration` is always
assigned at push time, hence `some` in every produced transaction. -/
structure Transaction where
  id : String
  requestLog : Ref
  responseLog : Option Ref
  duration : Option Int
  status : String
  keyInfo : String
  timestamp : String
deriving Repr, DecidableEq

/-- A produced transaction together with the values of the source's local
variables `matchMethod` and `matchedKey` at push time (the transaction
itself only exposes them through `keyInfo`). -/
structure MatchRec where
  tx : Transaction
  method : String
  mkey : String
deriving Repr, DecidableEq

/-- `Map.get` of the key → request lookup table (first entry wins; the
update discipline below keeps keys unique). -/
def mapGet (m : List (String × Ref)) (k : String) : Option Ref :=
  (m.find? fun p => p.1 == k).map (·.2)

/-- `Map.set`: remove any existing entry for the key, then append.  Only
`get` / `has` / `delete` observe the map, so the entry order is
irrelevant. -/
def mapSet (m : List (String × Ref)) (k : String) (v : Ref) :
    List (String × Ref) :=
  (m.filter fun p => p.1 ≠ k) ++ [(k, v)]

/-- `Map.delete`. -/
def mapDelete (m : List (String × Ref)) (k : String) : List (String × Ref) :=
  m.filter fun p => p.1 ≠ k

/-- The role classifier for requests (LogAnalyzer.tsx line 97):
`(lowerMsg.includes('request') && message.includes('\x7b')) ||
message.includes('InputChainData')`. -/
def isRequest (message : String) : Bool :=
  (strIncludes (strLower message) "request" && strIncludes message "\x7b") ||
    strIncludes message "InputChainData"

/-- The role classifier for responses (LogAnalyzer.tsx line 115):
`lowerMsg.includes('response') && (message.includes('\x7b') ||
message.includes('OutputChainData'))`. -/
def isResponse (message : String) : Bool :=
  strIncludes (strLower message) "response" &&
    (strIncludes message "\x7b" || strIncludes message "OutputChainData")

/-- The index pass (LogAnalyzer.tsx lines 94-110): register every key of a
request with at least one key in the lookup map and append the request to
the time-ordered list.  A request without keys is registered nowhere. -/
def indexStep (st : List (String × Ref) × List ReqEntry) (r : Ref) :
    List (String × Ref) × List ReqEntry :=
  if isRequest r.entry.message then
    let keys := extractKeys r.entry.message
    let time := getTime r.entry.timestamp
    if keys.isEmpty then st
    else
      (keys.foldl (fun m k => mapSet m k r) st.1, st.2 ++ [⟨r, keys, time⟩])
  else st

def buildIndex (refs : List Ref) : List (String × Ref) × List ReqEntry :=
  refs.foldl indexStep ([], [])

/-- Strategy A (LogAnalyzer.tsx lines 125-135): the first key of the
response, in extraction order, that is present in the lookup table. -/
def strategyA (lookup : List (String × Ref)) : List String → Option (Ref × String)
  | [] => none
  | k :: ks =>
    match mapGet lookup k with
    | some q => some (q, k)
    | none => strategyA lookup ks

/-- One step of the Strategy B scan (LogAnalyzer.tsx lines 143-155).  The
state is `(closestRequest, minTimeDiff)`; `minTimeDiff = none` models the
initial `Infinity`.  A candidate must have a positive delta below both the
10-second window and the current minimum, and must not already be the
request of a produced transaction. -/
def strategyBStep (groups : List Transaction) (responseTime : Option Int)
    (st : Option ReqEntry × Option Int) (req : ReqEntry) :
    Option ReqEntry × Option Int :=
  match jsub responseTime req.time with
  | none => st
  | some d =>
    let belowMin : Bool := match st.2 with
      | none => true
      | some m => d < m
    if 0 < d ∧ d < 10000 ∧ belowMin = true then
      if groups.any (fun g => refEq g.requestLog req.log) then st
      else (some req, some d)
    else st

/-- Strategy B (temporal fallback), returning the chosen request entry. -/
def strategyB (rbt : List ReqEntry) (groups : List Transaction)
    (responseTime : Option Int) : Option ReqEntry :=
  (rbt.foldl (strategyBStep groups responseTime) (none, none)).1

/-- The status classifier applied to a matched response
(LogAnalyzer.tsx lines 169-181). -/
def txStatus (log : LogEntry) : String :=
  if log.level = "ERROR" then "error"
  else if strIncludes log.message "\"Status\"" then
    match statusValueFind log.message.data with
    | some v => if v ≠ "Success" then "error" else "success"
    | none => "success"
  else if strIncludes log.message "\"ReturnCode\": \"API" &&
      !(strIncludes log.message "\"ReturnCode\": \"API0001\"") then "error"
  else "success"

/-- The transaction pushed for a match (LogAnalyzer.tsx lines 183-191). -/
def mkTx (matchedKey matchMethod : String) (q : Ref) (r : Ref)
    (responseTime : Option Int) : Transaction :=
  { id := String.mk (matchedKey.data ++ '-' :: (jsNumToString responseTime).data)
    requestLog := q
    responseLog := some r
    duration := some ((jsub responseTime (getTime q.entry.timestamp)).getD 0)
    status := txStatus r.entry
    keyInfo := if matchMethod = "Key" then matchedKey
      else String.mk (matchedKey.data ++ " [時間配對]".data)
    timestamp := q.entry.timestamp }

/-- The `matchedKey` of a Strategy B match:
`closestRequest.keys[0] || 'Time'` (JavaScript falsiness of `undefined` and
of the empty string). -/
def timeKeyOf (e : ReqEntry) : String :=
  match e.keys.head? with
  | some k => if k = "" then "Time" else k
  | none => "Time"

/-- One iteration of the match pass (LogAnalyzer.tsx lines 113-198) on the
state `(requestLookup, produced records)`. -/
def matchStep (rbt : List ReqEntry)
    (st : List (String × Ref) × List MatchRec) (r : Ref) :
    List (String × Ref) × List MatchRec :=
  if isResponse r.entry.message then
    let keys := extractKeys r.entry.message
    let responseTime := getTime r.entry.timestamp
    let groups := st.2.map (·.tx)
    match strategyA st.1 keys with
    | some (q, k) =>
      (mapDelete st.1 k, st.2 ++ [⟨mkTx k "Key" q r responseTime, "Key", k⟩])
    | none =>
      match strategyB rbt groups responseTime with
      | some e =>
        (st.1, st.2 ++ [⟨mkTx (timeKeyOf e) "Time" e.log r responseTime, "Time", timeKeyOf e⟩])
      | none => st
  else st

/-- The full match pass over the record stream. -/
def matchPass (refs : List Ref) : List MatchRec :=
  (refs.foldl (matchStep (buildIndex refs).2) ((buildIndex refs).1, [])).2

/-- The sort comparator (LogAnalyzer.tsx line 201):
`(a, b) => new Date(b.timestamp).getTime() - new Date(a.timestamp).getTime()`.
A `NaN` comparator value leaves the pair in place, i.e. acts as 0. -/
def cmpTx (a b : Transaction) : Int :=
  match jsub (getTime b.timestamp) (getTime a.timestamp) with
  | none => 0
  | some d => d

/-- `a` may stay before `b` under the comparator. -/
def leTx (a b : Transaction) : Bool :=
  cmpTx a b ≤ 0

/-- Stable insert of `x` into `l` (earlier elements of the original array
are inserted later and placed in front of comparator-equal elements, which
reproduces the stability guarantee of `Array.prototype.sort`). -/
def sortedInsert (le : α → α → Bool) (x : α) : List α → List α
  | [] => [x]
  | y :: ys => if le x y then x :: y :: ys else y :: sortedInsert le x ys

/-- A stable sort.  For a consistent comparator (which the source's
comparator is whenever every timestamp parses) every stable sort computes
the same list as `Array.prototype.sort`. -/
def stableSort (le : α → α → Bool) (l : List α) : List α :=
  l.foldr (sortedInsert le) []

/-- Attach array positions to the parsed records (`parsedLogs.forEach`). -/
def withIdx : Nat → List LogEntry → List Ref
  | _, [] => []
  | i, e :: es => ⟨i, e⟩ :: withIdx (i + 1) es

/-- `groupTransactions` (LogAnalyzer.tsx lines 60-203): index pass, match
pass, then the newest-first sort. -/
def groupTransactions (logs : List LogEntry) : List Transaction :=
  stableSort leTx ((matchPass (withIdx 0 logs)).map (·.tx))

/-- The kind component of a kind-qualified key string: the characters before
the first colon. -/
def kindOf (k : String) : String :=
  String.mk (k.data.takeWhile fun c => c ≠ ':')

/-- A request entry is a viable Strategy B candidate for a response at
`rt` with delta `d`: the delta is a number, lies strictly inside the
10-second window, and the request is not already the request of a produced
transaction. -/
def qualifies (groups : List Transaction) (rt : Option Int) (e : ReqEntry)
    (d : Int) : Prop :=
  jsub rt e.time = some d ∧ 0 < d ∧ d < 10000 ∧
    groups.any (fun g => refEq g.requestLog e.log) = false

/-- Everything a single produced match record guarantees: the request is
drawn from the record stream, the transaction's timestamp is the request's,
the response is present and determines duration and status, and a temporal
match has its delta inside the open window `(0, 10000)`. -/
def RecOK (refs : List Ref) (rec : MatchRec) : Prop :=
  rec.tx.requestLog ∈ refs ∧
  rec.tx.timestamp = rec.tx.requestLog.entry.timestamp ∧
  (∃ rr, rec.tx.responseLog = some rr ∧ rr ∈ refs ∧
    rec.tx.duration =
      some ((jsub (getTime rr.entry.timestamp)
        (getTime rec.tx.requestLog.entry.timestamp)).getD 0) ∧
    rec.tx.status = txStatus rr.entry) ∧
  (rec.method = "Key" ∨ rec.method = "Time") ∧
  (rec.method = "Time" →
    ∃ d, rec.tx.duration = some d ∧ 0 < d ∧ d < 10000)

/-- Descending order of parsed transaction timestamps (newest first). -/
def descLe (a b : Transaction) : Prop :=
  (getTime b.timestamp).getD 0 ≤ (getTime a.timestamp).getD 0

instance : IsTrans Transaction descLe :=
  ⟨fun _ _ _ hab hbc => le_trans hbc hab⟩

/-- Shorthand for building a parsed record as `analyzeLogs` would. -/
def mkLogEntry (ts lvl msg : String) : LogEntry :=
  ⟨ts, lvl, msg, some msg, []⟩

/-- A keyless request followed three seconds later by a keyless response
(the claimed Scenario 3 of the temporal fallback). -/
def keylessPairLogs : List LogEntry :=
  [mkLogEntry "2024-01-01T00:00:00" "INFO" "request \x7b hello \x7d",
   mkLogEntry "2024-01-01T00:00:03" "INFO" "response \x7b world \x7d"]

/-- A key-matched pair whose response carries an earlier timestamp than its
request. -/
def negDurationLogs : List LogEntry :=
  [mkLogEntry "2024-01-01T00:00:10" "INFO" "request \x7b\"OrderCode\": \"AB\"\x7d",
   mkLogEntry "2024-01-01T00:00:00" "INFO" "response \x7b\"OrderCode\": \"AB\"\x7d"]

/-- One request registered under two keys (`OrderCode:12345678` and
`NumberMatch:12345678`), followed by two responses carrying the same keys. -/
def doubleKeyLogs : List LogEntry :=
  [mkLogEntry "2024-01-01T00:00:00" "INFO" "request \x7b\"OrderCode\": \"12345678\"\x7d",
   mkLogEntry "2024-01-01T00:00:01" "INFO" "response \x7b\"OrderCode\": \"12345678\"\x7d",
   mkLogEntry "2024-01-01T00:00:02" "INFO" "response \x7b\"OrderCode\": \"12345678\"\x7d"]

/-- A matched response whose message contains the substring `"Status"` with
an unquoted value together with a non-`API0001` return code. -/
def statusNullLogs : List LogEntry :=
  [mkLogEntry "2024-01-01T00:00:00" "INFO" "request \x7b\"OrderCode\": \"AB\"\x7d",
   mkLogEntry "2024-01-01T00:00:01" "INFO"
     "response \x7b\"OrderCode\": \"AB\", \"Status\": null, \"ReturnCode\": \"API0002\"\x7d"]

/-- A keyed request eight seconds before a keyless response and a keyless
request one second before it. -/
def closerKeylessLogs : List LogEntry :=
  [mkLogEntry "2024-01-01T00:00:00" "INFO" "request \x7b\"OrderCode\": \"ZZ\"\x7d",
   mkLogEntry "2024-01-01T00:00:07" "INFO" "request \x7b keyless \x7d",
   mkLogEntry "2024-01-01T00:00:08" "INFO" "response \x7b nothing \x7d"]

/-- A single record that the role classifier marks as both request and
response, carrying one extractable key. -/
def selfMatchLogs : List LogEntry :=
  [mkLogEntry "2024-01-01T00:00:00" "INFO" "request response \x7b\"OrderCode\": \"A1\"\x7d"]

/-- A line of sixty word characters: no colon, no brace, no whitespace. -/
def longTokenLine : String :=
  String.mk (List.replicate 60 'a')

/-- An exact-key-match pair (Scenario 1 of the specification), used as a
concrete witness input. -/
def scenario1Logs : List LogEntry :=
  [mkLogEntry "2024-01-01T00:00:00" "INFO" "request \x7b\"OrderCode\": \"ABC123\"\x7d",
   mkLogEntry "2024-01-01T00:00:02" "INFO"
     "response \x7b\"OrderCode\": \"ABC123\", \"Status\": \"Success\"\x7d"]

/-- Every lookup entry maps a key extracted from a request of the stream to
that request. -/
def LookupOK (refs : List Ref) (m : List (String × Ref)) : Prop :=
  ∀ p ∈ m, p.2 ∈ refs ∧ p.1 ∈ extractKeys p.2.entry.message

/-- Every entry of the time-ordered request list is a request of the stream
that had at least one key, stored with its keys and its parsed time. -/
def RbtOK (refs : List Ref) (rbt : List ReqEntry) : Prop :=
  ∀ e ∈ rbt, e.log ∈ refs ∧ isRequest e.log.entry.message = true ∧
    e.keys = extractKeys e.log.entry.message ∧ e.keys ≠ [] ∧
    e.time = getTime e.log.entry.timestamp

/-- The lookup / time-list invariant established by the index pass. -/
def IndexOK (refs : List Ref) (st : List (String × Ref) × List ReqEntry) : Prop :=
  LookupOK refs st.1 ∧ RbtOK refs st.2

/-- The running invariant of the Strategy B fold: `S` is the set of already
processed request entries. -/
def InvB (groups : List Transaction) (rt : Option Int) (S : ReqEntry → Prop)
    (st : Option ReqEntry × Option Int) : Prop :=
  match st with
  | (some e, some d) => S e ∧ qualifies groups rt e d ∧
      ∀ e', S e' → ∀ d', qualifies groups rt e' d' → d ≤ d'
  | (none, none) => ∀ e', S e' → ∀ d', qualifies groups rt e' d' → False
  | _ => False

/-- The per-run uniqueness invariant of consumed keys: produced Strategy A
records carry pairwise distinct keys, and each such key is no longer in the
lookup table. -/
def KeysOK (st : List (String × Ref) × List MatchRec) : Prop :=
  (st.2.Pairwise fun a b => a.method = "Key" → b.method = "Key" → a.mkey ≠ b.mkey) ∧
  (∀ rec ∈ st.2, rec.method = "Key" → mapGet st.1 rec.mkey = none)

/-- A throwaway transaction used only as the default of `Option.getD`. -/
def dummyTx : Transaction :=
  ⟨"", ⟨0, mkLogEntry "" "" ""⟩, none, none, "", "", ""⟩

/-- The single transaction of the Scenario 1 run. -/
def scenario1Tx : Transaction :=
  ((groupTransactions scenario1Logs).head?).getD dummyTx

/-- The single (temporal) match record of the `closerKeylessLogs` run. -/
def c2TimeRec : MatchRec :=
  ((matchPass (withIdx 0 closerKeylessLogs)).head?).getD ⟨dummyTx, "", ""⟩

/-- The fallback-list entry registered for the Scenario 1 request. -/
def c1WitnessEntry : ReqEntry :=
  ⟨⟨0, mkLogEntry "2024-01-01T00:00:00" "INFO"
      "request \x7b\"OrderCode\": \"ABC123\"\x7d"⟩,
   ["OrderCode:ABC123"], some 1704067200000⟩

/-- A concrete one-entry lookup table for exercising Strategy A. -/
def c10Ref : Ref :=
  ⟨0, mkLogEntry "2024-01-01T00:00:00" "INFO" "request \x7b 98765432 \x7d"⟩

def c10Lookup : List (String × Ref) :=
  [("NumberMatch:98765432", c10Ref)]

/-- A concrete fallback entry for exercising Strategy B: a request whose
parsed time lies 3 seconds before the response time used in the witness. -/
def c6Entry : ReqEntry :=
  ⟨⟨0, mkLogEntry "2024-01-01T00:00:00" "INFO" "request \x7b\"OrderCode\": \"W\"\x7d"⟩,
   ["OrderCode:W"], some 1704067200000⟩

/-- A parsed record as produced by `analyzeLogs "hello"`. -/
def c5Rec : LogEntry :=
  ⟨"1970-01-01T00:00:00", "INFO", "hello", some "hello", ["hello"]⟩

/-- The status classifier as the amended claim describes it: level `ERROR`
wins; otherwise the mere presence of the substring `"Status"` selects rule
2, which yields success exactly when the first quoted `"Status"` value is
`Success` or when no quoted value exists (the `ReturnCode` rule is then
skipped); otherwise a `"ReturnCode": "API…"` value other than `API0001`
yields error; otherwise success. -/
def claimedStatusC4 (e : LogEntry) : String :=
  if e.level = "ERROR" then "error"
  else if strIncludes e.message "\"Status\"" then
    match statusValueFind e.message.data with
    | some v => if v = "Success" then "success" else "error"
    | none => "success"
  else if strIncludes e.message "\"ReturnCode\": \"API" &&
      !(strIncludes e.message "\"ReturnCode\": \"API0001\"") then "error"
  else "success"

end LogAnalyzer

namespace LogAnalyzer

/-! ### Generic list, map and sort lemmas -/

theorem length_dropWhile_le' (p : α → Bool) (l : List α) :
    (l.dropWhile p).length ≤ l.length := by
  induction l with
  | nil => simp [List.dropWhile]
  | cons a l ih =>
    by_cases h : p a
    · simp only [List.dropWhile, h]
      calc (l.dropWhile p).length ≤ l.length := ih
        _ ≤ (a :: l).length := by simp
    · simp only [List.dropWhile, h]
      simp

theorem jsTrim_length_le (l : List Char) : (jsTrim l).length ≤ l.length := by
  unfold jsTrim
  calc ((l.dropWhile isJsWs).reverse.dropWhile isJsWs).reverse.length
      = ((l.dropWhile isJsWs).reverse.dropWhile isJsWs).length := by
        rw [List.length_reverse]
    _ ≤ (l.dropWhile isJsWs).reverse.length := length_dropWhile_le' _ _
    _ = (l.dropWhile isJsWs).length := by rw [List.length_reverse]
    _ ≤ l.length := length_dropWhile_le' _ _

theorem mapGet_eq_some_mem {m : List (String × Ref)} {k : String} {q : Ref}
    (h : mapGet m k = some q) : (k, q) ∈ m := by
  unfold mapGet at h
  cases hf : m.find? (fun p => p.1 == k) with
  | none => rw [hf] at h; simp at h
  | some p =>
    rw [hf] at h
    simp at h
    have hm := List.mem_of_find?_eq_some hf
    have hp := List.find?_some hf
    simp at hp
    have : p = (k, q) := by
      cases p with
      | mk a b => simp_all
    rw [← this]; exact hm

theorem mapDelete_sub {m : List (String × Ref)} {k : String} {p : String × Ref}
    (h : p ∈ mapDelete m k) : p ∈ m := by
  unfold mapDelete at h
  exact (List.mem_filter.mp h).1

theorem mapGet_mapDelete_self (m : List (String × Ref)) (k : String) :
    mapGet (mapDelete m k) k = none := by
  unfold mapGet
  have h : List.find? (fun p => p.1 == k) (mapDelete m k) = none := by
    rw [List.find?_eq_none]
    intro p hp
    have := (List.mem_filter.mp hp).2
    simp at this ⊢
    exact this
  rw [h]
  rfl

theorem mapGet_mapDelete_none {m : List (String × Ref)} {k k' : String}
    (h : mapGet m k' = none) : mapGet (mapDelete m k) k' = none := by
  unfold mapGet at h ⊢
  have h' : List.find? (fun p => p.1 == k') m = none := by
    cases hf : List.find? (fun p => p.1 == k') m with
    | none => rfl
    | some p => rw [hf] at h; simp at h
  have h2 : List.find? (fun p => p.1 == k') (mapDelete m k) = none := by
    rw [List.find?_eq_none] at h' ⊢
    intro p hp
    exact h' p (mapDelete_sub hp)
  rw [h2]
  rfl

theorem mem_mapSet {m : List (String × Ref)} {k : String} {v : Ref}
    {p : String × Ref} (h : p ∈ mapSet m k v) : p ∈ m ∨ p = (k, v) := by
  unfold mapSet at h
  rcases List.mem_append.mp h with h1 | h1
  · exact Or.inl (List.mem_filter.mp h1).1
  · simp at h1; exact Or.inr h1

theorem mem_foldl_mapSet {keys : List String} {r : Ref} :
    ∀ {m : List (String × Ref)} {p : String × Ref},
      p ∈ keys.foldl (fun m k => mapSet m k r) m → p ∈ m ∨ (p.1 ∈ keys ∧ p.2 = r) := by
  induction keys with
  | nil => intro m p h; exact Or.inl h
  | cons k ks ih =>
    intro m p h
    rcases ih h with h1 | h1
    · rcases mem_mapSet h1 with h2 | h2
      · exact Or.inl h2
      · right
        refine ⟨?_, ?_⟩
        · rw [h2]; exact List.mem_cons_self _ _
        · rw [h2]
    · right; exact ⟨List.mem_cons_of_mem _ h1.1, h1.2⟩

theorem mem_sortedInsert (le : α → α → Bool) (x : α) :
    ∀ l (y : α), y ∈ sortedInsert le x l ↔ y = x ∨ y ∈ l := by
  intro l
  induction l with
  | nil => intro y; simp [sortedInsert]
  | cons z zs ih =>
    intro y
    by_cases h : le x z = true
    · simp [sortedInsert, h]
    · simp [sortedInsert, h, ih]
      tauto

theorem mem_stableSort (le : α → α → Bool) :
    ∀ (l : List α) (y : α), y ∈ stableSort le l ↔ y ∈ l := by
  intro l
  induction l with
  | nil => intro y; simp [stableSort]
  | cons z zs ih =>
    intro y
    show y ∈ sortedInsert le z (stableSort le zs) ↔ _
    rw [mem_sortedInsert, ih]
    simp

theorem head?_sortedInsert (le : α → α → Bool) (x : α) (l : List α) :
    (sortedInsert le x l).head? = some x ∨ (sortedInsert le x l).head? = l.head? := by
  cases l with
  | nil => left; rfl
  | cons y ys =>
    by_cases h : le x y = true
    · left; simp [sortedInsert, h]
    · right; simp [sortedInsert, h]

theorem chain'_sortedInsert (le : α → α → Bool)
    (tot : ∀ a b, le a b = true ∨ le b a = true) (x : α) :
    ∀ l, List.Chain' (fun a b => le a b = true) l →
      List.Chain' (fun a b => le a b = true) (sortedInsert le x l) := by
  intro l
  induction l with
  | nil => intro _; simp [sortedInsert]
  | cons y ys ih =>
    intro hc
    rw [List.chain'_cons'] at hc
    by_cases h : le x y = true
    · rw [show sortedInsert le x (y :: ys) = x :: y :: ys by
        simp [sortedInsert, h]]
      rw [List.chain'_cons]
      exact ⟨h, List.chain'_cons'.mpr hc⟩
    · rw [show sortedInsert le x (y :: ys) = y :: sortedInsert le x ys by
        simp [sortedInsert, h]]
      rw [List.chain'_cons']
      refine ⟨?_, ih hc.2⟩
      intro z hz
      rcases head?_sortedInsert le x ys with hh | hh
      · rw [hh] at hz
        simp at hz
        rcases tot x y with h1 | h1
        · exact absurd h1 h
        · rw [← hz]; exact h1
      · rw [hh] at hz
        exact hc.1 z hz

theorem chain'_stableSort (le : α → α → Bool)
    (tot : ∀ a b, le a b = true ∨ le b a = true) (l : List α) :
    List.Chain' (fun a b => le a b = true) (stableSort le l) := by
  induction l with
  | nil => simp [stableSort]
  | cons y ys ih => exact chain'_sortedInsert le tot y _ ih

theorem chain'_imp_mem {R S : α → α → Prop} :
    ∀ {l : List α}, (∀ a ∈ l, ∀ b ∈ l, R a b → S a b) →
      List.Chain' R l → List.Chain' S l := by
  intro l
  induction l with
  | nil => intro _ _; simp
  | cons y ys ih =>
    intro hmem hc
    rw [List.chain'_cons'] at hc ⊢
    refine ⟨?_, ih (fun a ha b hb => hmem a (by simp [ha]) b (by simp [hb])) hc.2⟩
    intro z hz
    exact hmem y (by simp) z (by simp [List.mem_of_mem_head? hz]) (hc.1 z hz)

theorem leTx_total (a b : Transaction) : leTx a b = true ∨ leTx b a = true := by
  unfold leTx cmpTx jsub
  cases getTime a.timestamp with
  | none =>
    cases getTime b.timestamp <;> simp
  | some ta =>
    cases getTime b.timestamp with
    | none => simp
    | some tb => simp; omega

theorem mem_withIdx {logs : List LogEntry} :
    ∀ {i : Nat} {r : Ref}, r ∈ withIdx i logs → r.entry ∈ logs := by
  induction logs with
  | nil => intro i r h; simp [withIdx] at h
  | cons e es ih =>
    intro i r h
    simp [withIdx] at h
    rcases h with h | h
    · rw [h]; simp
    · exact List.mem_cons_of_mem _ (ih h)

/-! ### Index pass invariants -/

theorem indexStep_inv {refs : List Ref} {st : List (String × Ref) × List ReqEntry}
    {r : Ref} (hr : r ∈ refs) (hst : IndexOK refs st) :
    IndexOK refs (indexStep st r) := by
  unfold indexStep
  by_cases hreq : isRequest r.entry.message = true
  · simp only [hreq, if_true]
    by_cases hk : (extractKeys r.entry.message).isEmpty = true
    · simp only [hk, if_true]
      exact hst
    · simp only [hk, if_false]
      constructor
      · intro p hp
        rcases mem_foldl_mapSet hp with h1 | h1
        · exact hst.1 p h1
        · refine ⟨by rw [h1.2]; exact hr, ?_⟩
          rw [h1.2]
          exact h1.1
      · intro e he
        rcases List.mem_append.mp he with h1 | h1
        · exact hst.2 e h1
        · simp at h1
          rw [h1]
          refine ⟨hr, hreq, rfl, ?_, rfl⟩
          intro hnil
          change extractKeys r.entry.message = [] at hnil
          rw [hnil] at hk
          simp at hk
  · simp only [hreq, if_false]
    exact hst

theorem foldl_indexStep_inv {refs : List Ref} :
    ∀ {l : List Ref} {st : List (String × Ref) × List ReqEntry},
      (∀ r ∈ l, r ∈ refs) → IndexOK refs st →
      IndexOK refs (l.foldl indexStep st) := by
  intro l
  induction l with
  | nil => intro st _ hst; exact hst
  | cons r rs ih =>
    intro st hl hst
    exact ih (fun x hx => hl x (List.mem_cons_of_mem _ hx))
      (indexStep_inv (hl r (List.mem_cons_self _ _)) hst)

theorem buildIndex_inv (refs : List Ref) : IndexOK refs (buildIndex refs) := by
  unfold buildIndex
  exact foldl_indexStep_inv (fun r hr => hr)
    ⟨fun p hp => absurd hp (by simp), fun e he => absurd he (by simp)⟩

/-! ### Strategy A -/

theorem strategyA_some {lookup : List (String × Ref)} :
    ∀ {keys : List String} {q : Ref} {k : String},
      strategyA lookup keys = some (q, k) →
      k ∈ keys ∧ mapGet lookup k = some q := by
  intro keys
  induction keys with
  | nil => intro q k h; simp [strategyA] at h
  | cons k0 ks ih =>
    intro q k h
    unfold strategyA at h
    cases hget : mapGet lookup k0 with
    | some q0 =>
      rw [hget] at h
      simp at h
      rcases h with ⟨hq, hk⟩
      subst hq
      subst hk
      exact ⟨List.mem_cons_self _ _, hget⟩
    | none =>
      rw [hget] at h
      rcases ih h with ⟨h1, h2⟩
      exact ⟨List.mem_cons_of_mem _ h1, h2⟩

/-! ### Strategy B: the fold computes the minimum qualifying delta -/

theorem invB_congr {groups : List Transaction} {rt : Option Int}
    {S S' : ReqEntry → Prop} (hS : ∀ e, S e ↔ S' e)
    {st : Option ReqEntry × Option Int} (h : InvB groups rt S st) :
    InvB groups rt S' st := by
  unfold InvB at h ⊢
  rcases st with ⟨oe, od⟩
  cases oe with
  | none =>
    cases od with
    | none => intro e' he' d' hq; exact h e' ((hS e').mpr he') d' hq
    | some d => exact h
  | some e =>
    cases od with
    | none => exact h
    | some d =>
      refine ⟨(hS e).mp h.1, h.2.1, ?_⟩
      intro e' he' d' hq
      exact h.2.2 e' ((hS e').mpr he') d' hq

theorem invB_extend {groups : List Transaction} {rt : Option Int}
    {S : ReqEntry → Prop} {x : ReqEntry}
    {st : Option ReqEntry × Option Int} (h : InvB groups rt S st)
    (hx : ∀ d', qualifies groups rt x d' →
      match st with
      | (some _, some m) => m ≤ d'
      | (none, none) => False
      | _ => True) :
    InvB groups rt (fun e => S e ∨ e = x) st := by
  rcases st with ⟨oe, od⟩
  cases oe with
  | none =>
    cases od with
    | none =>
      intro e' he' d' hq
      rcases he' with he' | he'
      · exact h e' he' d' hq
      · rw [he'] at hq
        exact hx d' hq
    | some m => exact h.elim
  | some e =>
    cases od with
    | none => exact h.elim
    | some m =>
      refine ⟨Or.inl h.1, h.2.1, ?_⟩
      intro e' he' d' hq
      rcases he' with he' | he'
      · exact h.2.2 e' he' d' hq
      · rw [he'] at hq
        have := h.2.1
        have hle : m ≤ d' := hx d' hq
        omega

theorem invB_step {groups : List Transaction} {rt : Option Int}
    {S : ReqEntry → Prop} {st : Option ReqEntry × Option Int} {x : ReqEntry}
    (h : InvB groups rt S st) :
    InvB groups rt (fun e => S e ∨ e = x)
      (strategyBStep groups rt st x) := by
  rcases st with ⟨oe, od⟩
  unfold strategyBStep
  cases hjs : jsub rt x.time with
  | none =>
    dsimp only
    refine invB_extend h ?_
    intro d' hq
    rcases hq with ⟨h1, _⟩
    rw [hjs] at h1
    exact absurd h1 (by simp)
  | some d =>
    cases oe with
    | none =>
      cases od with
      | some m => exact h.elim
      | none =>
        dsimp only
        split
        next hcond =>
          split
          next hmat =>
            refine invB_extend h ?_
            intro d' hq
            rcases hq with ⟨_, _, _, h4⟩
            rw [h4] at hmat
            simp at hmat
          next hmat =>
            have hmat' : groups.any (fun g => refEq g.requestLog x.log) = false := by
              revert hmat
              cases groups.any (fun g => refEq g.requestLog x.log) <;> simp
            refine ⟨Or.inr rfl, ⟨hjs, hcond.1, hcond.2.1, hmat'⟩, ?_⟩
            intro e' he' d' hq
            rcases he' with he' | he'
            · exact absurd hq (h e' he' d')
            · rw [he'] at hq
              rcases hq with ⟨h1, _⟩
              rw [hjs] at h1
              simp at h1
              omega
        next hcond =>
          refine invB_extend h ?_
          intro d' hq
          rcases hq with ⟨h1, h2, h3, _⟩
          rw [hjs] at h1
          simp at h1
          subst h1
          exact hcond ⟨h2, h3, rfl⟩
    | some e =>
      cases od with
      | none => exact h.elim
      | some m =>
        dsimp only
        split
        next hcond =>
          split
          next hmat =>
            refine invB_extend h ?_
            intro d' hq
            rcases hq with ⟨_, _, _, h4⟩
            rw [h4] at hmat
            simp at hmat
          next hmat =>
            have hmat' : groups.any (fun g => refEq g.requestLog x.log) = false := by
              revert hmat
              cases groups.any (fun g => refEq g.requestLog x.log) <;> simp
            have hdm : d < m := by
              have := hcond.2.2
              simp at this
              exact this
            refine ⟨Or.inr rfl, ⟨hjs, hcond.1, hcond.2.1, hmat'⟩, ?_⟩
            intro e' he' d' hq
            rcases he' with he' | he'
            · have := h.2.2 e' he' d' hq
              omega
            · rw [he'] at hq
              rcases hq with ⟨h1, _⟩
              rw [hjs] at h1
              simp at h1
              omega
        next hcond =>
          refine invB_extend h ?_
          intro d' hq
          rcases hq with ⟨h1, h2, h3, _⟩
          rw [hjs] at h1
          simp at h1
          subst h1
          by_contra hlt
          exact hcond ⟨h2, h3, by simp; omega⟩

theorem invB_foldl {groups : List Transaction} {rt : Option Int} :
    ∀ (l : List ReqEntry) (S : ReqEntry → Prop)
      (st : Option ReqEntry × Option Int), InvB groups rt S st →
      InvB groups rt (fun e => S e ∨ e ∈ l)
        (l.foldl (strategyBStep groups rt) st) := by
  intro l
  induction l with
  | nil =>
    intro S st h
    exact invB_congr (fun e => by simp) h
  | cons x xs ih =>
    intro S st h
    have h1 := ih (fun e => S e ∨ e = x) _ (invB_step h)
    refine invB_congr (fun e => ?_) h1
    simp
    tauto

theorem strategyB_some_spec {rbt : List ReqEntry} {groups : List Transaction}
    {rt : Option Int} {e : ReqEntry} (h : strategyB rbt groups rt = some e) :
    e ∈ rbt ∧ ∃ d, qualifies groups rt e d ∧
      ∀ e' ∈ rbt, ∀ d', qualifies groups rt e' d' → d ≤ d' := by
  have hinv := @invB_foldl groups rt rbt (fun _ => False) (none, none)
    (by intro e' he' _ _; exact he'.elim)
  unfold strategyB at h
  rcases hst : (rbt.foldl (strategyBStep groups rt) (none, none)) with ⟨oe, od⟩
  rw [hst] at h hinv
  simp at h
  rw [h] at hinv
  cases od with
  | none => exact hinv.elim
  | some d =>
    unfold InvB at hinv
    refine ⟨by simpa using hinv.1, d, hinv.2.1, ?_⟩
    intro e' he' d' hq
    exact hinv.2.2 e' (Or.inr he') d' hq

theorem strategyB_none_spec {rbt : List ReqEntry} {groups : List Transaction}
    {rt : Option Int} (h : strategyB rbt groups rt = none) :
    ∀ e ∈ rbt, ∀ d, qualifies groups rt e d → False := by
  have hinv := @invB_foldl groups rt rbt (fun _ => False) (none, none)
    (by intro e' he' _ _; exact he'.elim)
  unfold strategyB at h
  rcases hst : (rbt.foldl (strategyBStep groups rt) (none, none)) with ⟨oe, od⟩
  rw [hst] at h hinv
  simp at h
  rw [h] at hinv
  cases od with
  | none =>
    intro e he d hq
    exact hinv e (Or.inr he) d hq
  | some d => exact hinv.elim

/-! ### Match pass invariants -/

theorem matchStep_inv {refs : List Ref} {rbt : List ReqEntry}
    {st : List (String × Ref) × List MatchRec} {r : Ref}
    (hr : r ∈ refs) (hrbt : RbtOK refs rbt) (hlk : LookupOK refs st.1)
    (hrec : ∀ rec ∈ st.2, RecOK refs rec) :
    LookupOK refs (matchStep rbt st r).1 ∧
      ∀ rec ∈ (matchStep rbt st r).2, RecOK refs rec := by
  unfold matchStep
  by_cases hresp : isResponse r.entry.message = true
  · simp only [hresp, if_true]
    cases hA : strategyA st.1 (extractKeys r.entry.message) with
    | some p =>
      rcases p with ⟨q, k⟩
      constructor
      · intro pp hpp
        exact hlk pp (mapDelete_sub hpp)
      · intro rec hrec'
        rcases List.mem_append.mp hrec' with h1 | h1
        · exact hrec rec h1
        · simp at h1
          subst h1
          have hq := strategyA_some hA
          have hqmem : (k, q) ∈ st.1 := mapGet_eq_some_mem hq.2
          refine ⟨(hlk _ hqmem).1, rfl, ⟨r, rfl, hr, rfl, rfl⟩, Or.inl rfl, ?_⟩
          intro habs
          simp at habs
    | none =>
      cases hB : strategyB rbt (st.2.map (·.tx)) (getTime r.entry.timestamp) with
      | some e =>
        constructor
        · intro pp hpp
          exact hlk pp hpp
        · intro rec hrec'
          rcases List.mem_append.mp hrec' with h1 | h1
          · exact hrec rec h1
          · simp at h1
            subst h1
            have he := strategyB_some_spec hB
            have herbt := hrbt e he.1
            rcases he.2 with ⟨d, hqual, _⟩
            have htime : e.time = getTime e.log.entry.timestamp :=
              herbt.2.2.2.2
            have hd : jsub (getTime r.entry.timestamp)
                (getTime e.log.entry.timestamp) = some d := by
              rw [← htime]
              exact hqual.1
            refine ⟨herbt.1, rfl, ⟨r, rfl, hr, rfl, rfl⟩, Or.inr rfl, ?_⟩
            intro _
            refine ⟨d, ?_, hqual.2.1, hqual.2.2.1⟩
            show some ((jsub (getTime r.entry.timestamp)
              (getTime e.log.entry.timestamp)).getD 0) = some d
            rw [hd]
            rfl
      | none =>
        exact ⟨hlk, hrec⟩
  · simp only [hresp, if_false]
    exact ⟨hlk, hrec⟩

theorem foldl_matchStep_inv {refs : List Ref} {rbt : List ReqEntry}
    (hrbt : RbtOK refs rbt) :
    ∀ (l : List Ref) (st : List (String × Ref) × List MatchRec),
      (∀ x ∈ l, x ∈ refs) → LookupOK refs st.1 →
      (∀ rec ∈ st.2, RecOK refs rec) →
      ∀ rec ∈ (l.foldl (matchStep rbt) st).2, RecOK refs rec := by
  intro l
  induction l with
  | nil => intro st _ _ hrec; exact hrec
  | cons x xs ih =>
    intro st hl hlk hrec
    have hstep := matchStep_inv (hl x (List.mem_cons_self _ _)) hrbt hlk hrec
    exact ih _ (fun y hy => hl y (List.mem_cons_of_mem _ hy)) hstep.1 hstep.2

theorem matchPass_recOK (refs : List Ref) :
    ∀ rec ∈ matchPass refs, RecOK refs rec := by
  unfold matchPass
  exact foldl_matchStep_inv (buildIndex_inv refs).2 refs _
    (fun x hx => hx) (buildIndex_inv refs).1 (by simp)

theorem matchStep_keysOK {rbt : List ReqEntry}
    {st : List (String × Ref) × List MatchRec} {r : Ref}
    (h : KeysOK st) : KeysOK (matchStep rbt st r) := by
  unfold matchStep
  by_cases hresp : isResponse r.entry.message = true
  · simp only [hresp, if_true]
    cases hA : strategyA st.1 (extractKeys r.entry.message) with
    | some p =>
      rcases p with ⟨q, k⟩
      constructor
      · rw [List.pairwise_append]
        refine ⟨h.1, by simp, ?_⟩
        intro a ha b hb haK hbK
        simp at hb
        subst hb
        intro habs
        have hnone := h.2 a ha haK
        have hsome := (strategyA_some hA).2
        change a.mkey = k at habs
        rw [habs] at hnone
        rw [hnone] at hsome
        exact absurd hsome (by simp)
      · intro rec hrec hK
        rcases List.mem_append.mp hrec with h1 | h1
        · exact mapGet_mapDelete_none (h.2 rec h1 hK)
        · simp at h1
          subst h1
          exact mapGet_mapDelete_self st.1 k
    | none =>
      cases hB : strategyB rbt (st.2.map (·.tx)) (getTime r.entry.timestamp) with
      | some e =>
        constructor
        · rw [List.pairwise_append]
          refine ⟨h.1, by simp, ?_⟩
          intro a ha b hb haK hbK
          simp at hb
          subst hb
          simp at hbK
        · intro rec hrec hK
          rcases List.mem_append.mp hrec with h1 | h1
          · exact h.2 rec h1 hK
          · simp at h1
            subst h1
            simp at hK
      | none => exact h
  · simp only [hresp, if_false]
    exact h

theorem matchPass_pairwise (refs : List Ref) :
    (matchPass refs).Pairwise
      (fun a b => a.method = "Key" → b.method = "Key" → a.mkey ≠ b.mkey) := by
  unfold matchPass
  have hgen : ∀ (l : List Ref) (st : List (String × Ref) × List MatchRec),
      KeysOK st → KeysOK (l.foldl (matchStep (buildIndex refs).2) st) := by
    intro l
    induction l with
    | nil => intro st h; exact h
    | cons x xs ih => intro st h; exact ih _ (matchStep_keysOK h)
  have h0 : KeysOK ((buildIndex refs).1, ([] : List MatchRec)) :=
    ⟨by simp, by simp⟩
  exact (hgen refs ((buildIndex refs).1, []) h0).1

/-! ### Classifier and scanner lemmas -/

theorem txStatus_ne_pending (e : LogEntry) : txStatus e ≠ "pending" := by
  unfold txStatus
  split
  · decide
  · split
    · split
      · split
        · decide
        · decide
      · decide
    · split
      · decide
      · decide

theorem levelFindF_mem :
    ∀ {l : List Char} {b : Bool} {s : String}, levelFindF b l = some s →
      s ∈ ["ERROR", "WARN", "INFO", "DEBUG"] := by
  intro l
  induction l with
  | nil => intro b s h; simp [levelFindF] at h
  | cons c cs ih =>
    intro b s h
    unfold levelFindF at h
    split at h
    · simp at h; rw [← h]; decide
    · split at h
      · simp at h; rw [← h]; decide
      · split at h
        · simp at h; rw [← h]; decide
        · split at h
          · simp at h; rw [← h]; decide
          · exact ih h

theorem analyzeLogs_level {logText now : String} :
    ∀ r ∈ analyzeLogs logText now, r.level ∈ ["ERROR", "WARN", "INFO", "DEBUG"] := by
  intro r hr
  unfold analyzeLogs at hr
  rcases List.mem_map.mp hr with ⟨line, _, hline⟩
  rw [← hline]
  show (levelFind line).getD "INFO" ∈ _
  cases hl : levelFind line with
  | none => simp
  | some s =>
    simp only [Option.getD_some]
    exact levelFindF_mem hl

theorem cappedRuleGo_length {excl : Char → Bool} {target : Char}
    {body : List Char} :
    ∀ {j : Nat} {cap : List Char}, cappedRuleGo excl target body j = some cap →
      cap.length ≤ j := by
  intro j
  induction j with
  | zero => intro cap h; simp [cappedRuleGo] at h
  | succ k ih =>
    intro cap h
    unfold cappedRuleGo at h
    dsimp only at h
    split at h
    · simp at h
      rw [← h]
      simp [List.length_take]
    · exact le_trans (ih h) (by omega)

theorem matchNames_mem :
    ∀ {names : List String} {cs : List Char} {n v : String} {rest : List Char},
      matchNames names cs = some (n, v, rest) → n ∈ names := by
  intro names
  induction names with
  | nil => intro cs n v rest h; simp [matchNames] at h
  | cons n0 ns ih =>
    intro cs n v rest h
    unfold matchNames at h
    cases hm : matchOneName n0 cs with
    | some p =>
      rw [hm] at h
      simp at h
      rw [← h.1]
      exact List.mem_cons_self _ _
    | none =>
      rw [hm] at h
      exact List.mem_cons_of_mem _ (ih h)

theorem matchKV_mem {l : List Char} {n v : String} {rest : List Char}
    (h : matchKV l = some (n, v, rest)) : n ∈ allowNames := by
  unfold matchKV at h
  split at h
  · exact matchNames_mem h
  · simp at h

theorem structuredScanF_mem :
    ∀ {f : Nat} {l : List Char} {n v : String},
      (n, v) ∈ structuredScanF f l → n ∈ allowNames := by
  intro f
  induction f with
  | zero => intro l n v h; simp [structuredScanF] at h
  | succ g ih =>
    intro l n v h
    cases l with
    | nil => simp [structuredScanF] at h
    | cons c cs =>
      unfold structuredScanF at h
      cases hm : matchKV (c :: cs) with
      | some p =>
        rcases p with ⟨n0, v0, rest⟩
        rw [hm] at h
        simp at h
        rcases h with h1 | h1
        · rw [h1.1]
          exact matchKV_mem hm
        · exact ih h1
      | none =>
        rw [hm] at h
        exact ih h

theorem takeWhile_append_stop {p : α → Bool} :
    ∀ {l₁ : List α}, (∀ c ∈ l₁, p c = true) → ∀ {x : α}, p x = false →
      ∀ (l₂ : List α), (l₁ ++ x :: l₂).takeWhile p = l₁ := by
  intro l₁
  induction l₁ with
  | nil =>
    intro _ x hx l₂
    simp [List.takeWhile, hx]
  | cons a l ih =>
    intro hall x hx l₂
    have ha : p a = true := hall a (List.mem_cons_self _ _)
    show ((a :: l) ++ x :: l₂).takeWhile p = a :: l
    rw [List.cons_append, List.takeWhile_cons, ha]
    simp only [if_true]
    rw [ih (fun c hc => hall c (List.mem_cons_of_mem _ hc)) hx l₂]

theorem stringMk_data (s : String) : String.mk s.data = s := rfl

theorem kindOf_mkKey {kind : String} (h : ∀ c ∈ kind.data, c ≠ ':')
    (v : String) : kindOf (mkKey kind v) = kind := by
  unfold kindOf mkKey
  have : ((kind.data ++ ':' :: v.data).takeWhile fun c => c ≠ ':') = kind.data := by
    refine takeWhile_append_stop ?_ (by simp) v.data
    intro c hc
    simp [h c hc]
  show String.mk ((String.mk (kind.data ++ ':' :: v.data)).data.takeWhile _) = kind
  rw [show (String.mk (kind.data ++ ':' :: v.data)).data
    = kind.data ++ ':' :: v.data from rfl]
  rw [this]

theorem extractKeys_kinds {s : String} :
    ∀ k ∈ extractKeys s, kindOf k = "NumberMatch" ∨ kindOf k ∈ allowNames := by
  intro k hk
  unfold extractKeys at hk
  rcases List.mem_append.mp hk with h1 | h1
  · rcases List.mem_filterMap.mp h1 with ⟨⟨n, v⟩, hmem, hres⟩
    right
    have hn : n ∈ allowNames := structuredScanF_mem hmem
    have hcol : ∀ c ∈ n.data, c ≠ ':' := by
      have hall : ∀ m ∈ allowNames, ∀ c ∈ m.data, c ≠ ':' := by decide
      exact hall n hn
    by_cases hnull : v = "null"
    · rw [hnull] at hres; simp at hres
    · simp [hnull] at hres
      rw [← hres, kindOf_mkKey hcol]
      exact hn
  · rcases List.mem_map.mp h1 with ⟨run, _, hres⟩
    left
    rw [← hres, kindOf_mkKey (by decide)]

/-! ### Fuel adequacy of the scanners: each step of the match loop consumes
at least one character, so fuel equal to the input length never truncates
the scan. -/

theorem dropLit_length :
    ∀ {p l r : List Char}, dropLit p l = some r → r.length ≤ l.length := by
  intro p
  induction p with
  | nil =>
    intro l r h
    simp [dropLit] at h
    rw [← h]
  | cons x xs ih =>
    intro l r h
    cases l with
    | nil => simp [dropLit] at h
    | cons c cs =>
      unfold dropLit at h
      split at h
      · exact le_trans (ih h) (by simp)
      · simp at h

theorem stripQuote_length (l : List Char) : (stripQuote l).length ≤ l.length := by
  unfold stripQuote
  split
  · split
    · simp
    · exact le_refl _
  · exact le_refl _

theorem valueCapture_length {r5 : List Char} {v r8 : List Char}
    (h : valueCapture r5 = some (v, r8)) : r8.length ≤ r5.length := by
  unfold valueCapture at h
  dsimp only at h
  split at h
  · simp at h
  · simp only [Option.some.injEq, Prod.mk.injEq] at h
    have h6 := stripQuote_length r5
    have h7 : ((stripQuote r5).drop ((stripQuote r5).takeWhile
        (fun c => ¬ (c = '"' ∨ c = ',' ∨ c = '}'))).length).length ≤
        (stripQuote r5).length := by
      rw [List.length_drop]
      omega
    have h8 := stripQuote_length ((stripQuote r5).drop ((stripQuote r5).takeWhile
        (fun c => ¬ (c = '"' ∨ c = ',' ∨ c = '}'))).length)
    rw [← h.2]
    omega

theorem matchOneName_length {name : String} {cs : List Char} {v : String}
    {rest : List Char} (h : matchOneName name cs = some (v, rest)) :
    rest.length ≤ cs.length := by
  unfold matchOneName at h
  split at h
  · simp at h
  · next r2 heq =>
    have hr2 : r2.length ≤ cs.length := dropLit_length heq
    split at h
    · simp at h
    · next c r4 heq2 =>
      have hr4 : r4.length + 1 ≤ r2.length := by
        have h1 := length_dropWhile_le' isJsWs r2
        rw [heq2] at h1
        simpa using h1
      split at h
      · split at h
        · next v0 r0 heq3 =>
          simp at h
          have hvc := valueCapture_length heq3
          have hr5 : (r4.dropWhile isJsWs).length ≤ r4.length :=
            length_dropWhile_le' _ _
          rw [← h.2]
          omega
        · simp at h
      · simp at h

theorem matchNames_length :
    ∀ {names : List String} {cs : List Char} {n v : String} {rest : List Char},
      matchNames names cs = some (n, v, rest) → rest.length ≤ cs.length := by
  intro names
  induction names with
  | nil => intro cs n v rest h; simp [matchNames] at h
  | cons n0 ns ih =>
    intro cs n v rest h
    unfold matchNames at h
    cases hm : matchOneName n0 cs with
    | some p =>
      rw [hm] at h
      simp at h
      rcases p with ⟨v0, r0⟩
      have := matchOneName_length hm
      simp at h
      rw [← h.2.2]
      exact this
    | none =>
      rw [hm] at h
      exact ih h

theorem matchKV_rest_lt {l : List Char} {n v : String} {rest : List Char}
    (h : matchKV l = some (n, v, rest)) : rest.length < l.length := by
  unfold matchKV at h
  split at h
  · next c cs =>
    have := matchNames_length h
    simp
    omega
  · simp at h

theorem structuredScanF_adequate :
    ∀ (N : Nat) (l : List Char), l.length ≤ N → ∀ f f', l.length ≤ f →
      l.length ≤ f' → structuredScanF f l = structuredScanF f' l := by
  intro N
  induction N with
  | zero =>
    intro l hl f f' _ _
    have : l = [] := List.eq_nil_of_length_eq_zero (by omega)
    subst this
    cases f <;> cases f' <;> rfl
  | succ M ih =>
    intro l hl f f' hf hf'
    cases l with
    | nil => cases f <;> cases f' <;> rfl
    | cons c cs =>
      cases f with
      | zero => simp at hf
      | succ g =>
        cases f' with
        | zero => simp at hf'
        | succ g' =>
          show structuredScanF (g + 1) (c :: cs) = structuredScanF (g' + 1) (c :: cs)
          unfold structuredScanF
          cases hm : matchKV (c :: cs) with
          | some p =>
            rcases p with ⟨n, v, rest⟩
            have hrest := matchKV_rest_lt hm
            simp at hrest hl hf hf'
            show (n, v) :: structuredScanF g rest =
              (n, v) :: structuredScanF g' rest
            rw [ih rest (by omega) g g' (by omega) (by omega)]
          | none =>
            simp at hl hf hf'
            show structuredScanF g cs = structuredScanF g' cs
            exact ih cs (by omega) g g' (by omega) (by omega)

theorem digitRunsF_adequate :
    ∀ (N : Nat) (l : List Char), l.length ≤ N → ∀ (b : Bool) f f',
      l.length ≤ f → l.length ≤ f' → digitRunsF f b l = digitRunsF f' b l := by
  intro N
  induction N with
  | zero =>
    intro l hl b f f' _ _
    have : l = [] := List.eq_nil_of_length_eq_zero (by omega)
    subst this
    cases f <;> cases f' <;> rfl
  | succ M ih =>
    intro l hl b f f' hf hf'
    cases l with
    | nil => cases f <;> cases f' <;> rfl
    | cons c cs =>
      cases f with
      | zero => simp at hf
      | succ g =>
        cases f' with
        | zero => simp at hf'
        | succ g' =>
          show digitRunsF (g + 1) b (c :: cs) = digitRunsF (g' + 1) b (c :: cs)
          simp only [digitRunsF]
          have hlen : cs.length ≤ M ∧ cs.length ≤ g ∧ cs.length ≤ g' := by
            simp at hl hf hf'
            exact ⟨by omega, by omega, by omega⟩
          split
          · have hdrop : (cs.dropWhile Char.isDigit).length ≤ cs.length :=
              length_dropWhile_le' _ _
            rw [ih (cs.dropWhile Char.isDigit) (by omega) true g g'
              (by omega) (by omega)]
          · rw [ih cs (by omega) (isWordChar c) g g' (by omega) (by omega)]

/-! ### Bridge lemmas between the passes and the final output -/

theorem mem_groupTransactions {logs : List LogEntry} {tx : Transaction} :
    tx ∈ groupTransactions logs ↔
      ∃ rec ∈ matchPass (withIdx 0 logs), rec.tx = tx := by
  unfold groupTransactions
  rw [mem_stableSort]
  exact List.mem_map

theorem matchStep_key_eq {rbt : List ReqEntry}
    {st : List (String × Ref) × List MatchRec} {r : Ref} {q : Ref} {k : String}
    (hresp : isResponse r.entry.message = true)
    (hA : strategyA st.1 (extractKeys r.entry.message) = some (q, k)) :
    matchStep rbt st r =
      (mapDelete st.1 k,
       st.2 ++ [⟨mkTx k "Key" q r (getTime r.entry.timestamp), "Key", k⟩]) := by
  unfold matchStep
  simp only [hresp, if_true, hA]

theorem matchStep_drop_eq {rbt : List ReqEntry}
    {st : List (String × Ref) × List MatchRec} {r : Ref}
    (hresp : isResponse r.entry.message = true)
    (hA : strategyA st.1 (extractKeys r.entry.message) = none)
    (hB : strategyB rbt (st.2.map (·.tx)) (getTime r.entry.timestamp) = none) :
    matchStep rbt st r = st := by
  unfold matchStep
  simp only [hresp, if_true, hA, hB]

/-! ### The claims -/

/-- C1, counterexample: a keyless request followed three seconds later by a
keyless response yields no transaction at all — not, as claimed, a temporal
match with `durationMillis = 3000`.  The record really is classified as a
request, really has no keys, the second record really is a response, and
the timestamps really are three seconds apart. -/
theorem spec_C1_counterexample :
    groupTransactions keylessPairLogs = [] ∧
    isRequest "request \x7b hello \x7d" = true ∧
    extractKeys "request \x7b hello \x7d" = [] ∧
    isResponse "response \x7b world \x7d" = true ∧
    jsub (getTime "2024-01-01T00:00:03") (getTime "2024-01-01T00:00:00") =
      some 3000 := by
  exact ⟨rfl, rfl, rfl, rfl, rfl⟩

/-- C1, amended: the index pass appends a request to the time-ordered
fallback list only when it is classified as a request **and** has at least
one extracted key; a keyless request is registered nowhere, so it can never
be matched, not even by the temporal fallback. -/
theorem spec_C1 (refs : List Ref) :
    ∀ e ∈ (buildIndex refs).2, isRequest e.log.entry.message = true ∧
      e.keys = extractKeys e.log.entry.message ∧ e.keys ≠ [] := by
  intro e he
  have h := (buildIndex_inv refs).2 e he
  exact ⟨h.2.1, h.2.2.1, h.2.2.2.1⟩

/-- C1, witness: the Scenario 1 request is a fallback-list entry with its
one key. -/
theorem spec_C1_witness :
    isRequest c1WitnessEntry.log.entry.message = true ∧
    c1WitnessEntry.keys = extractKeys c1WitnessEntry.log.entry.message ∧
    c1WitnessEntry.keys ≠ [] :=
  spec_C1 (withIdx 0 scenario1Logs) c1WitnessEntry (by decide)

/-- C2, counterexample: a key-matched pair whose response carries a
timestamp ten seconds before the request's yields
`durationMillis = -10000` even though both timestamps parse — the claimed
clamping of negative values to 0 does not happen. -/
theorem spec_C2_counterexample :
    (groupTransactions negDurationLogs).map (·.duration) = [some (-10000)] ∧
    (getTime "2024-01-01T00:00:10").isSome = true ∧
    (getTime "2024-01-01T00:00:00").isSome = true := by
  exact ⟨rfl, rfl, rfl⟩

/-- C2, amended: `durationMillis` is the response time minus the request
time with 0 substituted only when that difference is `NaN`; finite negative
differences are stored unchanged.  Only a temporal (Strategy B) match
guarantees `0 < durationMillis < 10000`. -/
theorem spec_C2 (logs : List LogEntry) :
    (∀ tx ∈ groupTransactions logs, ∃ rr, tx.responseLog = some rr ∧
      tx.duration = some ((jsub (getTime rr.entry.timestamp)
        (getTime tx.requestLog.entry.timestamp)).getD 0)) ∧
    (∀ rec ∈ matchPass (withIdx 0 logs), rec.method = "Time" →
      ∃ d, rec.tx.duration = some d ∧ 0 < d ∧ d < 10000) := by
  constructor
  · intro tx htx
    rcases mem_groupTransactions.mp htx with ⟨rec, hrec, hrtx⟩
    have hok := matchPass_recOK _ rec hrec
    rcases hok.2.2.1 with ⟨rr, h1, _, h3, _⟩
    rw [← hrtx]
    exact ⟨rr, h1, h3⟩
  · intro rec hrec
    exact (matchPass_recOK _ rec hrec).2.2.2.2

/-- C2, witness: the Scenario 1 transaction satisfies the duration formula,
and the Scenario 3-style temporal match of `closerKeylessLogs` has its
delta inside the window. -/
theorem spec_C2_witness :
    (∃ rr, scenario1Tx.responseLog = some rr ∧
      scenario1Tx.duration = some ((jsub (getTime rr.entry.timestamp)
        (getTime scenario1Tx.requestLog.entry.timestamp)).getD 0)) ∧
    (∃ d, c2TimeRec.tx.duration = some d ∧ 0 < d ∧ d < 10000) :=
  ⟨(spec_C2 scenario1Logs).1 scenario1Tx (by decide),
   (spec_C2 closerKeylessLogs).2 c2TimeRec (by decide) (by decide)⟩

/-- C3, counterexample: one request registered under both
`OrderCode:12345678` and `NumberMatch:12345678` is key-matched by two
different responses, so two Strategy A transactions of one run share the
same `requestRecord` (array position 0). -/
theorem spec_C3_counterexample :
    (matchPass (withIdx 0 doubleKeyLogs)).map
      (fun rec => (rec.method, rec.mkey, rec.tx.requestLog.idx)) =
      [("Key", "OrderCode:12345678", 0), ("Key", "NumberMatch:12345678", 0)] := by
  exact rfl

/-- C3, amended: what the key-retirement really guarantees is that no two
Strategy A transactions of one run consume the **same key**; a request
registered under several keys can still be the request of several Strategy
A transactions. -/
theorem spec_C3 (logs : List LogEntry) :
    (matchPass (withIdx 0 logs)).Pairwise
      (fun a b => a.method = "Key" → b.method = "Key" → a.mkey ≠ b.mkey) :=
  matchPass_pairwise _

/-- C4, counterexample: a matched response whose message contains the bare
substring `"Status"` (with an unquoted `null` value) and a
`"ReturnCode": "API0002"` field is classified success: the presence of the
substring selects rule 2, the quoted-value pattern fails, and the
`ReturnCode` rule — which the claim says must then fire and yield error —
is skipped. -/
theorem spec_C4_counterexample :
    (groupTransactions statusNullLogs).map (·.status) = ["success"] ∧
    (statusNullLogs.map (·.level)) = ["INFO", "INFO"] ∧
    statusValueFind
      "response \x7b\"OrderCode\": \"AB\", \"Status\": null, \"ReturnCode\": \"API0002\"\x7d".data
      = none ∧
    strIncludes
      "response \x7b\"OrderCode\": \"AB\", \"Status\": null, \"ReturnCode\": \"API0002\"\x7d"
      "\"ReturnCode\": \"API" = true ∧
    strIncludes
      "response \x7b\"OrderCode\": \"AB\", \"Status\": null, \"ReturnCode\": \"API0002\"\x7d"
      "\"ReturnCode\": \"API0001\"" = false := by
  exact ⟨rfl, rfl, rfl, rfl, rfl⟩

/-- C4, amended: the classifier of the source equals, pointwise, the
amended rule set in which rule 2 triggers on the mere presence of the
substring `"Status"` (and, when no quoted value follows, returns success
and skips the `ReturnCode` rule). -/
theorem spec_C4 (e : LogEntry) : txStatus e = claimedStatusC4 e := by
  unfold txStatus claimedStatusC4
  split
  · rfl
  · split
    · cases statusValueFind e.message.data with
      | none => rfl
      | some v =>
        by_cases hv : v = "Success"
        · simp [hv]
        · simp [hv]
    · rfl

/-- C5, counterexample: a line of sixty word characters has no colon and no
brace, so the fallback token rule returns the whole line and the produced
tag has length 60 > 50. -/
theorem spec_C5_counterexample :
    (analyzeLogs longTokenLine "1970-01-01T00:00:00").map
      (fun r => r.tags.map String.length) = [[60]] := by
  exact rfl

/-- C5, amended: `parse` is total by construction; the level of every
produced record is one of ERROR, WARN, INFO, DEBUG (INFO when no token is
found); and the 50-character tag bound holds for the colon rule and the
brace rule — the fallback token rule is unbounded. -/
theorem spec_C5 (logText now : String) :
    (∀ r ∈ analyzeLogs logText now,
      r.level ∈ ["ERROR", "WARN", "INFO", "DEBUG"]) ∧
    (∀ body cap, colonRule body = some cap →
      (String.mk (jsTrim cap)).length ≤ 50) ∧
    (∀ body cap, braceRule body = some cap →
      (String.mk (jsTrim cap)).length ≤ 50) := by
  refine ⟨analyzeLogs_level, ?_, ?_⟩
  · intro body cap h
    have h1 : cap.length ≤ 50 := cappedRuleGo_length h
    have h2 : (jsTrim cap).length ≤ cap.length := jsTrim_length_le cap
    show (jsTrim cap).length ≤ 50
    omega
  · intro body cap h
    have h1 : cap.length ≤ 50 := cappedRuleGo_length h
    have h2 : (jsTrim cap).length ≤ cap.length := jsTrim_length_le cap
    show (jsTrim cap).length ≤ 50
    omega

/-- C5, witness: the record parsed from `hello` has level INFO, and the
colon-rule capture of `ab: x` trims to two characters. -/
theorem spec_C5_witness :
    c5Rec.level ∈ ["ERROR", "WARN", "INFO", "DEBUG"] ∧
    (String.mk (jsTrim ['a', 'b'])).length ≤ 50 :=
  ⟨(spec_C5 "hello" "1970-01-01T00:00:00").1 c5Rec (by decide),
   (spec_C5 "hello" "1970-01-01T00:00:00").2.1 "ab: x".data ['a', 'b'] (by decide)⟩

/-- C6, counterexample: with a keyed request 8 seconds before a keyless
response and a request-classified keyless record only 1 second before it,
Strategy B selects the keyed request (delta 8000), not the closer request
(delta 1000): keyless requests are simply not candidates. -/
theorem spec_C6_counterexample :
    (matchPass (withIdx 0 closerKeylessLogs)).map
      (fun rec => (rec.method, rec.tx.requestLog.idx, rec.tx.duration)) =
      [("Time", 0, some 8000)] ∧
    isRequest "request \x7b keyless \x7d" = true ∧
    jsub (getTime "2024-01-01T00:00:08") (getTime "2024-01-01T00:00:07") =
      some 1000 := by
  exact ⟨rfl, rfl, rfl⟩

/-- C6, amended: Strategy B runs only when Strategy A found nothing, and it
selects, among the entries of the fallback request list (only requests
with at least one key, by C1) not yet consumed by a transaction of the
run, the one with the smallest delta in the open window `(0, 10000)`; when
no entry qualifies — for instance when the nearest entry is 15 seconds
earlier — no transaction is produced for that response. -/
theorem spec_C6 :
    (∀ (rbt : List ReqEntry) (groups : List Transaction) (rt : Option Int)
      (e : ReqEntry), strategyB rbt groups rt = some e →
      e ∈ rbt ∧ ∃ d, qualifies groups rt e d ∧
        ∀ e' ∈ rbt, ∀ d', qualifies groups rt e' d' → d ≤ d') ∧
    (∀ (rbt : List ReqEntry) (groups : List Transaction) (rt : Option Int),
      strategyB rbt groups rt = none →
      ∀ e ∈ rbt, ∀ d, qualifies groups rt e d → False) ∧
    (∀ (rbt : List ReqEntry) (st : List (String × Ref) × List MatchRec)
      (r q : Ref) (k : String), isResponse r.entry.message = true →
      strategyA st.1 (extractKeys r.entry.message) = some (q, k) →
      matchStep rbt st r = (mapDelete st.1 k,
        st.2 ++ [⟨mkTx k "Key" q r (getTime r.entry.timestamp), "Key", k⟩])) ∧
    (∀ (rbt : List ReqEntry) (st : List (String × Ref) × List MatchRec)
      (r : Ref), isResponse r.entry.message = true →
      strategyA st.1 (extractKeys r.entry.message) = none →
      strategyB rbt (st.2.map (·.tx)) (getTime r.entry.timestamp) = none →
      matchStep rbt st r = st) :=
  ⟨fun _ _ _ _ h => strategyB_some_spec h,
   fun _ _ _ h => strategyB_none_spec h,
   fun _ _ _ _ _ hresp hA => matchStep_key_eq hresp hA,
   fun _ _ _ hresp hA hB => matchStep_drop_eq hresp hA hB⟩

/-- C6, witness: a one-entry fallback list with delta 3000 is selected and
its minimality statement holds at the concrete run. -/
theorem spec_C6_witness :
    c6Entry ∈ [c6Entry] ∧ ∃ d, qualifies [] (some 1704067203000) c6Entry d ∧
      ∀ e' ∈ [c6Entry], ∀ d',
        qualifies [] (some 1704067203000) e' d' → d ≤ d' :=
  spec_C6.1 [c6Entry] [] (some 1704067203000) c6Entry (by decide)

/-- C7: only matched pairs are materialized — every produced transaction
carries a response record, and no transaction has status `pending` (an
unmatched request never surfaces, and an unmatched response pushes no
transaction, the state being returned unchanged as conjunct four of C6
shows). -/
theorem spec_C7 (logs : List LogEntry) :
    ∀ tx ∈ groupTransactions logs,
      (∃ rr, tx.responseLog = some rr) ∧ tx.status ≠ "pending" := by
  intro tx htx
  rcases mem_groupTransactions.mp htx with ⟨rec, hrec, hrtx⟩
  have hok := matchPass_recOK _ rec hrec
  rcases hok.2.2.1 with ⟨rr, h1, _, _, h4⟩
  rw [← hrtx]
  refine ⟨⟨rr, h1⟩, ?_⟩
  rw [h4]
  exact txStatus_ne_pending rr.entry

/-- C7, witness: the Scenario 1 transaction has a response and is not
pending. -/
theorem spec_C7_witness :
    (∃ rr, scenario1Tx.responseLog = some rr) ∧
      scenario1Tx.status ≠ "pending" :=
  spec_C7 scenario1Logs scenario1Tx (by decide)

/-- C8: correlation is a pure function of the record stream (running it
twice gives the same list), the output is sorted newest-first by
transaction timestamp whenever every record timestamp parses, and every
transaction's timestamp is its request's timestamp. -/
theorem spec_C8 (logs : List LogEntry) :
    groupTransactions logs = groupTransactions logs ∧
    ((∀ l ∈ logs, (getTime l.timestamp).isSome = true) →
      (groupTransactions logs).Pairwise descLe) ∧
    (∀ tx ∈ groupTransactions logs,
      tx.timestamp = tx.requestLog.entry.timestamp) := by
  refine ⟨rfl, ?_, ?_⟩
  · intro hall
    have hmemts : ∀ tx ∈ groupTransactions logs,
        (getTime tx.timestamp).isSome = true := by
      intro tx htx
      rcases mem_groupTransactions.mp htx with ⟨rec, hrec, hrtx⟩
      have hok := matchPass_recOK _ rec hrec
      rw [← hrtx, hok.2.1]
      exact hall _ (mem_withIdx hok.1)
    have hchain : List.Chain' (fun a b => leTx a b = true)
        (groupTransactions logs) :=
      chain'_stableSort leTx leTx_total _
    have hchain2 : List.Chain' descLe (groupTransactions logs) := by
      refine chain'_imp_mem ?_ hchain
      intro a ha b hb hab
      have hsa := hmemts a ha
      have hsb := hmemts b hb
      unfold leTx cmpTx at hab
      unfold descLe
      cases hga : getTime a.timestamp with
      | none => rw [hga] at hsa; simp at hsa
      | some ta =>
        cases hgb : getTime b.timestamp with
        | none => rw [hgb] at hsb; simp at hsb
        | some tb =>
          rw [hga, hgb] at hab
          simp [jsub] at hab
          simp only [Option.getD_some]
          omega
    exact List.chain'_iff_pairwise.mp hchain2
  · intro tx htx
    rcases mem_groupTransactions.mp htx with ⟨rec, hrec, hrtx⟩
    rw [← hrtx]
    exact (matchPass_recOK _ rec hrec).2.1

/-- C8, witness: the Scenario 1 run has parseable timestamps, its output is
sorted, and its transaction carries the request's timestamp. -/
theorem spec_C8_witness :
    (groupTransactions scenario1Logs).Pairwise descLe ∧
    scenario1Tx.timestamp = scenario1Tx.requestLog.entry.timestamp :=
  ⟨(spec_C8 scenario1Logs).2.1 (by decide),
   (spec_C8 scenario1Logs).2.2 scenario1Tx (by decide)⟩

/-- C9: a single record classified as both request and response (it
contains `request`, `response`, a brace and one key) is matched to itself
by Strategy A: the run produces exactly one transaction whose request and
response are the same record (array position 0) with duration 0. -/
theorem spec_C9 :
    (groupTransactions selfMatchLogs).map
      (fun t => (t.requestLog.idx, t.responseLog.map (·.idx), t.duration)) =
      [(0, some 0, some 0)] ∧
    (matchPass (withIdx 0 selfMatchLogs)).map (·.method) = ["Key"] ∧
    isRequest "request response \x7b\"OrderCode\": \"A1\"\x7d" = true ∧
    isResponse "request response \x7b\"OrderCode\": \"A1\"\x7d" = true := by
  exact ⟨rfl, rfl, rfl, rfl⟩

/-- C10: Strategy A matches a response key only against the very same
kind-qualified key string registered for a request; every extracted key is
kind-qualified with either `NumberMatch` or an allow-listed field name; and
`NumberMatch` is not an allow-listed name — so a bare-number key can never
match a structured field key. -/
theorem spec_C10 :
    (∀ (lookup : List (String × Ref)) (keys : List String) (q : Ref)
      (k : String), strategyA lookup keys = some (q, k) →
      k ∈ keys ∧ mapGet lookup k = some q) ∧
    (∀ (refs : List Ref), ∀ p ∈ (buildIndex refs).1,
      p.1 ∈ extractKeys p.2.entry.message) ∧
    (∀ (s : String), ∀ k ∈ extractKeys s,
      kindOf k = "NumberMatch" ∨ kindOf k ∈ allowNames) ∧
    "NumberMatch" ∉ allowNames :=
  ⟨fun _ _ _ _ h => strategyA_some h,
   fun refs p hp => ((buildIndex_inv refs).1 p hp).2,
   fun _ => extractKeys_kinds,
   by decide⟩

/-- C10, witness: a concrete `NumberMatch` key found by Strategy A is one
of the response's keys and is the registered key string itself, and the
concrete key `NumberMatch:12345678` extracted from a bare number has kind
`NumberMatch`. -/
theorem spec_C10_witness :
    ("NumberMatch:98765432" ∈ ["NumberMatch:98765432"] ∧
      mapGet c10Lookup "NumberMatch:98765432" = some c10Ref) ∧
    (kindOf "NumberMatch:12345678" = "NumberMatch" ∨
      kindOf "NumberMatch:12345678" ∈ allowNames) :=
  ⟨spec_C10.1 c10Lookup ["NumberMatch:98765432"] c10Ref
      "NumberMatch:98765432" (by decide),
   spec_C10.2.2.1 "bare 12345678" "NumberMatch:12345678" (by decide)⟩

end LogAnalyzer
